import Mathlib

/-!
Verification of the color-strip renderer and region extraction of the
`infer_google_vision_image_properties` plug-in
(`infer_google_vision_image_properties_process.py`).

The shallow embedding models:
  * `ColorEntry` / `ColorInfo`: one dominant color with its `pixel_fraction`
    weight, as returned by the annotation service (floats are modelled as ℚ);
  * `render`: the inlined rendering loop of `InferGoogleVisionImageProperties.run`
    (lines 106-128): a blank RGB image `Image.new("RGB", (w, h))` (black), then
    for each entry `block_width = int((entry.pixel_fraction / total) * width)`
    and `draw.rectangle([x0, 0, x1, height], fill=color)`, `x0 = x1`.
    PIL `ImageDraw.rectangle` paints a bounding box INCLUSIVE of both
    endpoints, clipped to the image; `Image.new` with no color fills black.
    Python `int()` truncates toward zero (`intTrunc`).  The division
    `entry.pixel_fraction / pixel_fraction_total` sits inside the loop, so a
    ZeroDivisionError is raised exactly when the palette is non-empty and the
    total is zero; an empty palette skips the loop and yields the blank image.
  * `extractBox`: lines 138-143, reading `vertices[0]`, `vertices[1]`,
    `vertices[2]` (an IndexError when fewer than 3 vertices) and computing
    `x = v0.x`, `y = v0.y`, `w = v1.x - x`, `h = v2.x - y` (note: the source
    uses `vertices[2][0]`, the x-coordinate, in the height computation);
  * the parameter class `set_values` / `get_values` round-trip;
  * `runTask`: the output wiring of `run` (forwarded input image, dict text,
    `add_object(0, 'selected area', 1.0, x, y, w, h, self.color)`).
-/

/-- An RGB color triple as produced by `int()` conversion of the service's
float channels. -/
abbrev RGB := ℤ × ℤ × ℤ

/-- Color channels of a dominant-color entry (`entry.color.red`, … are floats,
modelled as ℚ). -/
structure ColorInfo where
  red : ℚ
  green : ℚ
  blue : ℚ
deriving DecidableEq

/-- One dominant-color entry of the service response: a color and its
`pixel_fraction` weight. -/
structure ColorEntry where
  color : ColorInfo
  pixel_fraction : ℚ
deriving DecidableEq

/-- Python `int()` on a float/rational: truncation toward zero. -/
def intTrunc (q : ℚ) : ℤ := if 0 ≤ q then ⌊q⌋ else ⌈q⌉

/-- `color_rgb = (int(entry.color.red), int(entry.color.green), int(entry.color.blue))`
(source lines 116-119). -/
def entryRGB (e : ColorEntry) : RGB :=
  (intTrunc e.color.red, intTrunc e.color.green, intTrunc e.color.blue)

/-- `pixel_fraction_total = sum(entry.pixel_fraction for entry in color_data)`
(source line 110). -/
def pixelFractionTotal (color_data : List ColorEntry) : ℚ :=
  (color_data.map (·.pixel_fraction)).sum

/-- `block_width = int((entry.pixel_fraction / pixel_fraction_total) * self.total_width)`
(source line 122). -/
def blockWidth (total : ℚ) (w : ℕ) (e : ColorEntry) : ℤ :=
  intTrunc ((e.pixel_fraction / total) * w)

/-- Sum of the floor-truncated block widths of a palette. -/
def sumBW (color_data : List ColorEntry) (total : ℚ) (w : ℕ) : ℤ :=
  (color_data.map (blockWidth total w)).sum

/-- The output raster: fixed dimensions and a pixel map (row, column ↦ color);
only coordinates with `row < height` and `col < width` are image pixels. -/
structure StripImage where
  width : ℕ
  height : ℕ
  pixel : ℕ → ℕ → RGB

/-- `Image.new("RGB", (w, h))`: a blank image, filled with black `(0,0,0)`. -/
def blankImage (w h : ℕ) : StripImage :=
  { width := w, height := h, pixel := fun _ _ => (0, 0, 0) }

/-- PIL `draw.rectangle([x0, y0, x1, y1], fill=c)`: paints every image pixel
whose coordinates satisfy `x0 ≤ x ≤ x1` and `y0 ≤ y ≤ y1` (the bounding box is
inclusive of both endpoints), clipped to the image bounds. -/
def drawRect (img : StripImage) (x0 y0 x1 y1 : ℤ) (c : RGB) : StripImage :=
  { img with pixel := fun py px =>
      if px < img.width ∧ py < img.height ∧
          x0 ≤ (px : ℤ) ∧ (px : ℤ) ≤ x1 ∧ y0 ≤ (py : ℤ) ∧ (py : ℤ) ≤ y1
      then c else img.pixel py px }

/-- The drawing loop of `run` (source lines 113-125): starting from cursor
`x0`, draw each entry's block `draw.rectangle([x0, 0, x1, height], fill=rgb)`
and advance `x0 = x1`. -/
def drawBlocks (color_data : List ColorEntry) (total : ℚ) (x0 : ℤ)
    (img : StripImage) : StripImage :=
  match color_data with
  | [] => img
  | entry :: rest =>
      let x1 := x0 + blockWidth total img.width entry
      drawBlocks rest total x1
        (drawRect img x0 0 x1 (img.height : ℤ) (entryRGB entry))

/-- Failure modes of the rendering portion of `run`.  `zeroDivision` is the
Python ZeroDivisionError actually raised by the unguarded division on source
line 122.  `degenerateInput` is modelled from the spec: the spec's
`DegenerateInputError` taxonomy entry has no counterpart in the source. -/
inductive RenderError where
  | zeroDivision
  | degenerateInput
deriving DecidableEq

/-- The color-strip rendering portion of `run` (source lines 106-128).  The
division by `pixel_fraction_total` is executed only inside the per-entry loop,
so an empty palette succeeds with the blank image, and a non-empty palette
with zero total fails with ZeroDivisionError at the first iteration. -/
def render (color_data : List ColorEntry) (width height : ℕ) :
    Except RenderError StripImage :=
  let total := pixelFractionTotal color_data
  match color_data with
  | [] => .ok (blankImage width height)
  | entry :: rest =>
      if total = 0 then .error .zeroDivision
      else .ok (drawBlocks (entry :: rest) total 0 (blankImage width height))

/-- The pixel value of a successful render at (row, col), `none` on failure. -/
def renderPixel (color_data : List ColorEntry) (w h : ℕ) (py px : ℕ) :
    Option RGB :=
  (render color_data w h).toOption.map fun img => img.pixel py px

/-- `self.total_width = 1200` (source line 58). -/
def default_total_width : ℕ := 1200

/-- `self.image_height = 800` (source line 59). -/
def default_image_height : ℕ := 800

/-- `self.color = [0, 255, 255]` (source line 57). -/
def default_display_color : List ℕ := [0, 255, 255]

/-- Failure modes of the region-extraction portion of `run`.
`indexOutOfRange` is the Python IndexError raised by `vertices[0]` /
`vertices[1]` / `vertices[2]` on source lines 140-143 when the vertex list is
too short.  `malformedRegion` is modelled from the spec: the spec's
`MalformedRegionError` taxonomy entry has no counterpart in the source. -/
inductive RegionError where
  | indexOutOfRange
  | malformedRegion
deriving DecidableEq

/-- The axis-aligned box extracted from the crop hint (`x_box`, `y_box`, `w`,
`h` of source lines 140-143). -/
structure CropBox where
  x : ℤ
  y : ℤ
  w : ℤ
  h : ℤ
deriving DecidableEq

/-- Region extraction of `run` (source lines 138-143): given the crop-hint
vertices as `(x, y)` pairs,
`x_box = vertices[0][0]`, `y_box = vertices[0][1]`,
`w = vertices[1][0] - x_box`, `h = vertices[2][0] - y_box`.
Note that the source computes `h` from `vertices[2][0]` — the x-coordinate of
the third vertex — not its y-coordinate.  Fewer than 3 vertices raise an
IndexError. -/
def extractBox (vertices : List (ℤ × ℤ)) : Except RegionError CropBox :=
  match vertices with
  | v0 :: v1 :: v2 :: _ =>
      .ok { x := v0.1, y := v0.2, w := v1.1 - v0.1, h := v2.1 - v0.2 }
  | _ => .error .indexOutOfRange

/-- Modelled from the spec: the region-extraction contract of section 4.2,
`x = corner0.x, y = corner0.y, w = corner1.x - x, h = corner2.y - y` (the
height uses the y-coordinate of the third corner). -/
def extractBoxSpec (vertices : List (ℤ × ℤ)) : Except RegionError CropBox :=
  match vertices with
  | v0 :: v1 :: v2 :: _ =>
      .ok { x := v0.1, y := v0.2, w := v1.1 - v0.1, h := v2.2 - v0.2 }
  | _ => .error .malformedRegion

/-- The parameter object `InferGoogleVisionImagePropertiesParam` (source lines
15-33): a single string-valued field. -/
structure VisionParam where
  google_application_credentials : String
deriving DecidableEq

/-- `__init__` (source line 20): `self.google_application_credentials = ''`. -/
def VisionParam.default : VisionParam := ⟨""⟩

/-- `set_values` (source lines 22-26): reads
`params["google_application_credentials"]` from the string-keyed dict (a
missing key is a Python KeyError, modelled as `none`) and stores `str(...)` of
it (the identity on strings). -/
def set_values (_p : VisionParam) (params : String → Option String) :
    Option VisionParam :=
  match params "google_application_credentials" with
  | some v => some ⟨v⟩
  | none => none

/-- `get_values` (source lines 28-33): returns the dict
`{"google_application_credentials": str(self.google_application_credentials)}`. -/
def get_values (p : VisionParam) : String → Option String :=
  fun key =>
    if key = "google_application_credentials" then
      some p.google_application_credentials
    else none

/-- The record passed to `output_box.add_object(0, 'selected area', 1.0,
float(x_box), float(y_box), float(w), float(h), self.color)` (source line
146). -/
structure DetectedObject where
  id : ℕ
  label : String
  confidence : ℚ
  x : ℚ
  y : ℚ
  w : ℚ
  h : ℚ
  display_color : List ℕ

/-- The outputs produced by a successful `run`: the color-strip image (output
0), the raw textual response dict (output 1), the detected-region record
(output 2), and the forwarded original input image (output 3, written by
`forward_input_image(0, 3)` on source line 77). -/
structure RunOutputs (α : Type) where
  strip_image : StripImage
  dict_data : String
  box_object : DetectedObject
  forwarded_image : α

/-- A failure of `run`: either from the rendering loop or from the region
extraction. -/
inductive RunError where
  | renderFail : RenderError → RunError
  | regionFail : RegionError → RunError

/-- The post-inference portion of `run` (source lines 66-152), as a function
of the input image and of the fields of the service response (the dominant
colors, the raw textual response, and the crop-hint vertices). -/
def runTask {α : Type} (src_image : α) (color_data : List ColorEntry)
    (response_text : String) (vertices : List (ℤ × ℤ)) (width height : ℕ) :
    Except RunError (RunOutputs α) :=
  match render color_data width height with
  | .error e => .error (.renderFail e)
  | .ok strip =>
      match extractBox vertices with
      | .error e => .error (.regionFail e)
      | .ok box =>
          .ok { strip_image := strip
                dict_data := response_text
                box_object :=
                  { id := 0, label := "selected area", confidence := 1,
                    x := (box.x : ℚ), y := (box.y : ℚ),
                    w := (box.w : ℚ), h := (box.h : ℚ),
                    display_color := default_display_color }
                forwarded_image := src_image }

/-- Modelled from the spec: drawing a filled rectangle spanning the half-open
region `[x0, x1) × [y0, y1)` (the spec's block description), for comparison
with the inclusive PIL `drawRect`. -/
def specDrawRect (img : StripImage) (x0 y0 x1 y1 : ℤ) (c : RGB) : StripImage :=
  { img with pixel := fun py px =>
      if px < img.width ∧ py < img.height ∧
          x0 ≤ (px : ℤ) ∧ (px : ℤ) < x1 ∧ y0 ≤ (py : ℤ) ∧ (py : ℤ) < y1
      then c else img.pixel py px }

/-- Modelled from the spec: the drawing loop with half-open blocks
`[x0, x0 + block_width) × [0, height)` as described in spec section 4.1. -/
def specDrawBlocks (color_data : List ColorEntry) (total : ℚ) (x0 : ℤ)
    (img : StripImage) : StripImage :=
  match color_data with
  | [] => img
  | entry :: rest =>
      let x1 := x0 + blockWidth total img.width entry
      specDrawBlocks rest total x1
        (specDrawRect img x0 0 x1 (img.height : ℤ) (entryRGB entry))

/-- Modelled from the spec: the renderer as described by the claim, with
half-open blocks. -/
def specRender (color_data : List ColorEntry) (width height : ℕ) :
    Except RenderError StripImage :=
  let total := pixelFractionTotal color_data
  match color_data with
  | [] => .ok (blankImage width height)
  | entry :: rest =>
      if total = 0 then .error .zeroDivision
      else .ok (specDrawBlocks (entry :: rest) total 0 (blankImage width height))

/-- The pixel value of a successful spec-described render, `none` on failure. -/
def specRenderPixel (color_data : List ColorEntry) (w h : ℕ) (py px : ℕ) :
    Option RGB :=
  (specRender color_data w h).toOption.map fun img => img.pixel py px

/-- The inclusive column spans `[x0, x1]` of the rectangles drawn by the loop,
in drawing order. -/
def blockSpans (color_data : List ColorEntry) (total : ℚ) (w : ℕ) (x0 : ℤ) :
    List (ℤ × ℤ) :=
  match color_data with
  | [] => []
  | entry :: rest =>
      let x1 := x0 + blockWidth total w entry
      (x0, x1) :: blockSpans rest total w x1

/-- Whether column `px` is covered by some drawn block span. -/
def coveredB (spans : List (ℤ × ℤ)) (px : ℤ) : Bool :=
  spans.any fun s => decide (s.1 ≤ px ∧ px ≤ s.2)

/-- The value of the loop cursor `x0` after processing the given entries,
starting from `x0` (source lines 113, 123, 125). -/
def finalCursor (color_data : List ColorEntry) (total : ℚ) (w : ℕ) (x0 : ℤ) :
    ℤ :=
  match color_data with
  | [] => x0
  | entry :: rest => finalCursor rest total w (x0 + blockWidth total w entry)

/-- The per-pixel effect of the drawing loop on one image row, tracking the
base color a pixel had before the loop. -/
def paintedColor (color_data : List ColorEntry) (total : ℚ) (w : ℕ) (x0 : ℤ)
    (px : ℕ) (base : RGB) : RGB :=
  match color_data with
  | [] => base
  | entry :: rest =>
      let x1 := x0 + blockWidth total w entry
      paintedColor rest total w x1 px
        (if px < w ∧ x0 ≤ (px : ℤ) ∧ (px : ℤ) ≤ x1 then entryRGB entry else base)

theorem intTrunc_eval (q : ℚ) (n : ℤ) (h0 : (0:ℚ) ≤ q) (h1 : (n:ℚ) ≤ q)
    (h2 : q < n + 1) : intTrunc q = n := by
  rw [intTrunc, if_pos h0]
  exact Int.floor_eq_iff.mpr ⟨h1, by exact_mod_cast h2⟩

theorem intTrunc_of_nonneg (q : ℚ) (h0 : (0:ℚ) ≤ q) : intTrunc q = ⌊q⌋ := by
  rw [intTrunc, if_pos h0]

theorem intTrunc_nonneg (q : ℚ) (h0 : (0:ℚ) ≤ q) : 0 ≤ intTrunc q := by
  rw [intTrunc_of_nonneg q h0]
  exact Int.floor_nonneg.mpr h0

theorem intTrunc_le (q : ℚ) (h0 : (0:ℚ) ≤ q) : (intTrunc q : ℚ) ≤ q := by
  rw [intTrunc_of_nonneg q h0]
  exact Int.floor_le q

theorem lt_intTrunc_add_one (q : ℚ) (h0 : (0:ℚ) ≤ q) :
    q - 1 < (intTrunc q : ℚ) := by
  rw [intTrunc_of_nonneg q h0]
  exact Int.sub_one_lt_floor q

theorem blockFraction_nonneg (total : ℚ) (w : ℕ) (e : ColorEntry)
    (hf : 0 ≤ e.pixel_fraction) (ht : 0 < total) :
    (0:ℚ) ≤ (e.pixel_fraction / total) * w := by
  have : (0:ℚ) ≤ e.pixel_fraction / total := div_nonneg hf ht.le
  positivity

theorem blockWidth_nonneg (total : ℚ) (w : ℕ) (e : ColorEntry)
    (hf : 0 ≤ e.pixel_fraction) (ht : 0 < total) : 0 ≤ blockWidth total w e :=
  intTrunc_nonneg _ (blockFraction_nonneg total w e hf ht)

theorem sumBW_nil (total : ℚ) (w : ℕ) : sumBW [] total w = 0 := rfl

theorem sumBW_cons (e : ColorEntry) (l : List ColorEntry) (total : ℚ) (w : ℕ) :
    sumBW (e :: l) total w = blockWidth total w e + sumBW l total w := by
  simp [sumBW]

theorem sumBW_append (l₁ l₂ : List ColorEntry) (total : ℚ) (w : ℕ) :
    sumBW (l₁ ++ l₂) total w = sumBW l₁ total w + sumBW l₂ total w := by
  simp [sumBW]

theorem sumBW_nonneg (l : List ColorEntry) (total : ℚ) (w : ℕ)
    (hf : ∀ e ∈ l, 0 ≤ e.pixel_fraction) (ht : 0 < total) :
    0 ≤ sumBW l total w := by
  induction l with
  | nil => simp [sumBW_nil]
  | cons e rest ih =>
      rw [sumBW_cons]
      have h1 := blockWidth_nonneg total w e (hf e (by simp)) ht
      have h2 := ih fun x hx => hf x (by simp [hx])
      omega

theorem pixelFractionTotal_nil : pixelFractionTotal [] = 0 := rfl

theorem pixelFractionTotal_cons (e : ColorEntry) (l : List ColorEntry) :
    pixelFractionTotal (e :: l) = e.pixel_fraction + pixelFractionTotal l := by
  simp [pixelFractionTotal]

/-- The sum of the exact (un-truncated) block fractions
`(entry.pixel_fraction / total) * width` over the whole palette is exactly the
width, provided `total` is the palette's own non-zero weight sum. -/
theorem sum_fractions (l : List ColorEntry) (w : ℕ)
    (ht : pixelFractionTotal l ≠ 0) :
    (l.map fun e => (e.pixel_fraction / pixelFractionTotal l) * w).sum
      = (w : ℚ) := by
  set total := pixelFractionTotal l with htot
  have hmap : ∀ (m : List ColorEntry) (c : ℚ),
      (m.map fun e => e.pixel_fraction * c).sum = pixelFractionTotal m * c := by
    intro m c
    induction m with
    | nil => simp [pixelFractionTotal_nil]
    | cons e rest ih => simp [pixelFractionTotal_cons, ih, add_mul]
  have heq : (l.map fun e => (e.pixel_fraction / total) * w).sum
      = (l.map fun e => e.pixel_fraction * ((w : ℚ) / total)).sum := by
    apply congrArg
    apply List.map_congr_left
    intro e _
    rw [div_mul_eq_mul_div, mul_div_assoc]
  rw [heq, hmap, ← htot, mul_comm total ((w : ℚ) / total), div_mul_cancel₀]
  exact ht

/-- Upper bound: the truncated block widths sum to at most the strip width. -/
theorem sumBW_le_width (l : List ColorEntry) (w : ℕ)
    (hf : ∀ e ∈ l, 0 ≤ e.pixel_fraction) (ht : 0 < pixelFractionTotal l) :
    sumBW l (pixelFractionTotal l) w ≤ (w : ℤ) := by
  set total := pixelFractionTotal l with htot
  have key : ∀ (m : List ColorEntry), (∀ e ∈ m, 0 ≤ e.pixel_fraction) →
      (sumBW m total w : ℚ) ≤ (m.map fun e => (e.pixel_fraction / total) * w).sum := by
    intro m hm
    induction m with
    | nil => simp [sumBW_nil]
    | cons e rest ih =>
        rw [sumBW_cons]
        push_cast
        have h1 := intTrunc_le _ (blockFraction_nonneg total w e (hm e (by simp)) ht)
        have h2 := ih fun x hx => hm x (by simp [hx])
        simp only [List.map_cons, List.sum_cons]
        calc (blockWidth total w e : ℚ) + (sumBW rest total w : ℚ)
            ≤ (e.pixel_fraction / total) * w + (sumBW rest total w : ℚ) := by
              exact add_le_add_right h1 _
          _ ≤ (e.pixel_fraction / total) * w
              + (rest.map fun x => (x.pixel_fraction / total) * w).sum := by
              exact add_le_add_left h2 _
  have h := key l hf
  rw [sum_fractions l w (ne_of_gt ht)] at h
  exact_mod_cast h

/-- Exact fraction bounds for one truncated block width. -/
theorem blockWidth_le_frac (total : ℚ) (w : ℕ) (e : ColorEntry)
    (hf : 0 ≤ e.pixel_fraction) (ht : 0 < total) :
    (blockWidth total w e : ℚ) ≤ (e.pixel_fraction / total) * w :=
  intTrunc_le _ (blockFraction_nonneg total w e hf ht)

theorem frac_sub_one_lt_blockWidth (total : ℚ) (w : ℕ) (e : ColorEntry)
    (hf : 0 ≤ e.pixel_fraction) (ht : 0 < total) :
    (e.pixel_fraction / total) * w - 1 < (blockWidth total w e : ℚ) :=
  lt_intTrunc_add_one _ (blockFraction_nonneg total w e hf ht)

/-- Lower bound: floor truncation loses strictly less than one pixel per
entry, so the width shortfall is at most `palette_size - 1`. -/
theorem width_sub_sumBW_le (l : List ColorEntry) (w : ℕ)
    (hf : ∀ e ∈ l, 0 ≤ e.pixel_fraction) (ht : 0 < pixelFractionTotal l) :
    (w : ℤ) - sumBW l (pixelFractionTotal l) w ≤ (l.length : ℤ) - 1 := by
  have hne : l ≠ [] := by
    intro h
    rw [h, pixelFractionTotal_nil] at ht
    exact lt_irrefl 0 ht
  set total := pixelFractionTotal l with htot
  have key : ∀ (m : List ColorEntry), m ≠ [] → (∀ e ∈ m, 0 ≤ e.pixel_fraction) →
      (m.map fun e => (e.pixel_fraction / total) * w).sum - (m.length : ℚ)
        < (sumBW m total w : ℚ) := by
    intro m hmne hm
    induction m with
    | nil => exact absurd rfl hmne
    | cons e rest ih =>
        rw [sumBW_cons]
        simp only [List.map_cons, List.sum_cons, List.length_cons]
        push_cast
        have h1 := frac_sub_one_lt_blockWidth total w e (hm e (by simp)) ht
        by_cases hrest : rest = []
        · subst hrest
          simp only [List.map_nil, List.sum_nil, List.length_nil, sumBW_nil]
          push_cast
          linarith
        · have h2 := ih hrest fun x hx => hm x (by simp [hx])
          linarith
  have h := key l hne hf
  rw [sum_fractions l w (ne_of_gt ht)] at h
  have h2 : (w : ℚ) - (l.length : ℚ) < (sumBW l total w : ℚ) := by linarith
  have h3 : (w : ℤ) - (l.length : ℤ) < sumBW l total w := by exact_mod_cast h2
  omega

theorem drawRect_width (img : StripImage) (x0 y0 x1 y1 : ℤ) (c : RGB) :
    (drawRect img x0 y0 x1 y1 c).width = img.width := rfl

theorem drawRect_height (img : StripImage) (x0 y0 x1 y1 : ℤ) (c : RGB) :
    (drawRect img x0 y0 x1 y1 c).height = img.height := rfl

theorem drawBlocks_width (l : List ColorEntry) (total : ℚ) (x0 : ℤ)
    (img : StripImage) : (drawBlocks l total x0 img).width = img.width := by
  induction l generalizing x0 img with
  | nil => rfl
  | cons e rest ih => rw [drawBlocks, ih]; rfl

theorem drawBlocks_height (l : List ColorEntry) (total : ℚ) (x0 : ℤ)
    (img : StripImage) : (drawBlocks l total x0 img).height = img.height := by
  induction l generalizing x0 img with
  | nil => rfl
  | cons e rest ih => rw [drawBlocks, ih]; rfl

/-- The drawing loop acts pointwise: a pixel of a row inside the image ends up
with the color computed by `paintedColor` from its previous color. -/
theorem drawBlocks_pixel (l : List ColorEntry) (total : ℚ) (x0 : ℤ)
    (img : StripImage) (py px : ℕ) (hpy : py < img.height) :
    (drawBlocks l total x0 img).pixel py px
      = paintedColor l total img.width x0 px (img.pixel py px) := by
  induction l generalizing x0 img with
  | nil => rfl
  | cons e rest ih =>
      rw [drawBlocks, paintedColor]
      have h := ih (x0 + blockWidth total img.width e)
        (drawRect img x0 0 (x0 + blockWidth total img.width e)
          (img.height : ℤ) (entryRGB e))
        (by rw [drawRect_height]; exact hpy)
      rw [drawRect_width] at h
      rw [h]
      have hcond : (drawRect img x0 0 (x0 + blockWidth total img.width e)
          (img.height : ℤ) (entryRGB e)).pixel py px
          = (if px < img.width ∧ x0 ≤ (px : ℤ) ∧
              (px : ℤ) ≤ x0 + blockWidth total img.width e
             then entryRGB e else img.pixel py px) := by
        rw [drawRect]
        simp only
        have h0y : (0:ℤ) ≤ (py : ℤ) := Int.ofNat_nonneg py
        have h1y : (py : ℤ) ≤ (img.height : ℤ) := by exact_mod_cast hpy.le
        by_cases hx : px < img.width ∧ x0 ≤ (px : ℤ) ∧
            (px : ℤ) ≤ x0 + blockWidth total img.width e
        · rw [if_pos ⟨hx.1, hpy, hx.2.1, hx.2.2, h0y, h1y⟩, if_pos hx]
        · rw [if_neg, if_neg hx]
          intro hfull
          exact hx ⟨hfull.1, hfull.2.2.1, hfull.2.2.2.1⟩
      rw [hcond]

/-- A pixel strictly left of the cursor is never painted by the loop. -/
theorem paintedColor_of_lt (l : List ColorEntry) (total : ℚ) (w : ℕ) (x0 : ℤ)
    (px : ℕ) (base : RGB) (hbw : ∀ e ∈ l, 0 ≤ blockWidth total w e)
    (hx : (px : ℤ) < x0) : paintedColor l total w x0 px base = base := by
  induction l generalizing x0 base with
  | nil => rfl
  | cons e rest ih =>
      rw [paintedColor]
      have hbe := hbw e (by simp)
      rw [if_neg (by
        intro hc
        exact absurd hc.2.1 (not_le.mpr hx))]
      exact ih (x0 + blockWidth total w e) base
        (fun x hxm => hbw x (by simp [hxm])) (by omega)

/-- A pixel strictly right of all remaining blocks is never painted. -/
theorem paintedColor_of_gt (l : List ColorEntry) (total : ℚ) (w : ℕ) (x0 : ℤ)
    (px : ℕ) (base : RGB) (hbw : ∀ e ∈ l, 0 ≤ blockWidth total w e)
    (hx : x0 + sumBW l total w < (px : ℤ)) :
    paintedColor l total w x0 px base = base := by
  induction l generalizing x0 base with
  | nil => rfl
  | cons e rest ih =>
      rw [paintedColor]
      have hbe := hbw e (by simp)
      have hrest : 0 ≤ sumBW rest total w :=
        List.sum_nonneg (by
          intro z hz
          simp only [List.mem_map] at hz
          obtain ⟨x, hxm, rfl⟩ := hz
          exact hbw x (by simp [hxm]))
      rw [sumBW_cons] at hx
      rw [if_neg (by
        intro hc
        omega)]
      exact ih (x0 + blockWidth total w e) base
        (fun x hxm => hbw x (by simp [hxm])) (by omega)

/-- A pixel strictly inside the i-th block's half-open span ends up with the
i-th entry's color: later blocks start at or after the span's right end, and
the i-th block itself covers the pixel. -/
theorem paintedColor_get (l : List ColorEntry) (total : ℚ) (w : ℕ) (x0 : ℤ)
    (px : ℕ) (base : RGB) (i : ℕ) (hi : i < l.length)
    (hbw : ∀ e ∈ l, 0 ≤ blockWidth total w e) (hxw : px < w)
    (h1 : x0 + sumBW (l.take i) total w ≤ (px : ℤ))
    (h2 : (px : ℤ) < x0 + sumBW (l.take (i + 1)) total w) :
    paintedColor l total w x0 px base = entryRGB (l.get ⟨i, hi⟩) := by
  induction l generalizing x0 base i with
  | nil => exact absurd hi (by simp)
  | cons e rest ih =>
      rw [paintedColor]
      match i with
      | 0 =>
          simp only [List.take_zero, sumBW_nil, add_zero] at h1
          rw [List.take_succ_cons, List.take_zero, sumBW_cons, sumBW_nil,
            add_zero] at h2
          rw [if_pos ⟨hxw, h1, by omega⟩]
          rw [paintedColor_of_lt rest total w _ px _
            (fun x hxm => hbw x (by simp [hxm])) (by omega)]
          rfl
      | j + 1 =>
          rw [List.take_succ_cons, sumBW_cons] at h1
          rw [List.take_succ_cons, sumBW_cons] at h2
          have hj : j < rest.length := by simpa using hi
          have := ih (x0 + blockWidth total w e)
            (if px < w ∧ x0 ≤ (px : ℤ) ∧
                (px : ℤ) ≤ x0 + blockWidth total w e
             then entryRGB e else base)
            j hj (fun x hxm => hbw x (by simp [hxm]))
            (by omega) (by omega)
          rw [this]
          rfl

/-- The pixel at the final cursor position (the shared right end of the last
block's inclusive span) ends up with the last entry's color. -/
theorem paintedColor_last (l : List ColorEntry) (total : ℚ) (w : ℕ) :
    ∀ (x0 : ℤ) (px : ℕ) (base : RGB) (hne : l ≠ [])
      (hbw : ∀ e ∈ l, 0 ≤ blockWidth total w e) (hxw : px < w)
      (hx : (px : ℤ) = x0 + sumBW l total w),
      paintedColor l total w x0 px base = entryRGB (l.getLast hne) := by
  induction l with
  | nil =>
      intro x0 px base hne
      exact absurd rfl hne
  | cons e rest ih =>
      intro x0 px base hne hbw hxw hx
      rw [paintedColor]
      cases rest with
      | nil =>
          rw [sumBW_cons, sumBW_nil, add_zero] at hx
          have hbe := hbw e (by simp)
          rw [if_pos ⟨hxw, by omega, by omega⟩]
          rfl
      | cons f rest2 =>
          rw [sumBW_cons] at hx
          rw [ih (x0 + blockWidth total w e) px _ (by simp)
            (fun x hxm => hbw x (by simp [hxm])) hxw (by omega)]
          simp [List.getLast_cons]

theorem finalCursor_eq (l : List ColorEntry) (total : ℚ) (w : ℕ) :
    ∀ x0 : ℤ, finalCursor l total w x0 = x0 + sumBW l total w := by
  induction l with
  | nil => intro x0; rw [finalCursor, sumBW_nil, add_zero]
  | cons e rest ih =>
      intro x0
      rw [finalCursor, ih, sumBW_cons]
      ring

/-- With non-negative block widths and a non-empty palette, the drawn spans
cover exactly the columns from the start cursor to the final cursor,
inclusive. -/
theorem coveredB_iff (l : List ColorEntry) (total : ℚ) (w : ℕ) :
    ∀ (x0 : ℤ) (px : ℤ), l ≠ [] →
      (∀ e ∈ l, 0 ≤ blockWidth total w e) →
      (coveredB (blockSpans l total w x0) px = true
        ↔ x0 ≤ px ∧ px ≤ x0 + sumBW l total w) := by
  induction l with
  | nil =>
      intro x0 px hne
      exact absurd rfl hne
  | cons e rest ih =>
      intro x0 px _ hbw
      have hbe := hbw e (by simp)
      rw [blockSpans, sumBW_cons]
      cases rest with
      | nil =>
          simp only [blockSpans, coveredB, List.any_cons, List.any_nil,
            Bool.or_false, decide_eq_true_eq, sumBW_nil]
          constructor
          · intro h
            exact ⟨h.1, by omega⟩
          · intro h
            exact ⟨h.1, by omega⟩
      | cons f rest2 =>
          have hrest : 0 ≤ sumBW (f :: rest2) total w :=
            List.sum_nonneg (by
              intro z hz
              simp only [List.mem_map] at hz
              obtain ⟨x, hxm, rfl⟩ := hz
              exact hbw x (by simp [hxm]))
          have ihr := ih (x0 + blockWidth total w e) px (by simp)
            (fun x hxm => hbw x (by simp [hxm]))
          simp only [coveredB, List.any_cons, decide_eq_true_eq,
            Bool.or_eq_true] at ihr ⊢
          constructor
          · intro h
            rcases h with h | h
            · exact ⟨h.1, by omega⟩
            · have := ihr.mp h
              constructor <;> omega
          · intro h
            by_cases hx : px ≤ x0 + blockWidth total w e
            · exact Or.inl ⟨h.1, hx⟩
            · refine Or.inr (ihr.mpr ⟨by omega, by omega⟩)

/-- Unfolding of `render` on a successfully rendered non-empty palette. -/
theorem render_eq_ok (l : List ColorEntry) (w h : ℕ) (hne : l ≠ [])
    (ht : pixelFractionTotal l ≠ 0) :
    render l w h
      = .ok (drawBlocks l (pixelFractionTotal l) 0 (blankImage w h)) := by
  cases l with
  | nil => exact absurd rfl hne
  | cons e rest =>
      rw [render]
      simp only [if_neg ht]

/-- Dimensions of a successfully rendered image. -/
theorem render_dims (l : List ColorEntry) (w h : ℕ) (img : StripImage)
    (hok : render l w h = .ok img) : img.width = w ∧ img.height = h := by
  cases l with
  | nil =>
      rw [render] at hok
      simp only [Except.ok.injEq] at hok
      rw [← hok]
      exact ⟨rfl, rfl⟩
  | cons e rest =>
      rw [render] at hok
      by_cases ht : pixelFractionTotal (e :: rest) = 0
      · rw [if_pos ht] at hok
        exact absurd hok (by simp)
      · rw [if_neg ht] at hok
        simp only [Except.ok.injEq] at hok
        rw [← hok, drawBlocks_width, drawBlocks_height]
        exact ⟨rfl, rfl⟩

/-- All blocks have non-negative width when the palette weights are
non-negative with positive total. -/
theorem blockWidths_nonneg (l : List ColorEntry) (w : ℕ)
    (hf : ∀ e ∈ l, 0 ≤ e.pixel_fraction) (ht : 0 < pixelFractionTotal l) :
    ∀ e ∈ l, 0 ≤ blockWidth (pixelFractionTotal l) w e :=
  fun e he => blockWidth_nonneg _ w e (hf e he) ht

theorem sumBW_drop_nonneg (l : List ColorEntry) (total : ℚ) (w k : ℕ)
    (hbw : ∀ e ∈ l, 0 ≤ blockWidth total w e) :
    0 ≤ sumBW (l.drop k) total w :=
  List.sum_nonneg (by
    intro z hz
    simp only [List.mem_map] at hz
    obtain ⟨x, hxm, rfl⟩ := hz
    exact hbw x (List.drop_subset k l hxm))

theorem sumBW_take_le (l : List ColorEntry) (total : ℚ) (w k : ℕ)
    (hbw : ∀ e ∈ l, 0 ≤ blockWidth total w e) :
    sumBW (l.take k) total w ≤ sumBW l total w := by
  conv_rhs => rw [← List.take_append_drop k l]
  rw [sumBW_append]
  have := sumBW_drop_nonneg l total w k hbw
  omega

theorem sumBW_take_nonneg (l : List ColorEntry) (total : ℚ) (w k : ℕ)
    (hbw : ∀ e ∈ l, 0 ≤ blockWidth total w e) :
    0 ≤ sumBW (l.take k) total w :=
  List.sum_nonneg (by
    intro z hz
    simp only [List.mem_map] at hz
    obtain ⟨x, hxm, rfl⟩ := hz
    exact hbw x (List.take_subset k l hxm))

theorem sumBW_take_mono (l : List ColorEntry) (total : ℚ) (w k : ℕ)
    (hbw : ∀ e ∈ l, 0 ≤ blockWidth total w e) :
    sumBW (l.take k) total w ≤ sumBW (l.take (k + 1)) total w := by
  rw [List.take_succ, sumBW_append]
  cases hk : l[k]? with
  | none => simp [sumBW_nil]
  | some e =>
      have he : e ∈ l := List.getElem?_mem hk
      have := hbw e he
      simp only [Option.toList_some]
      rw [sumBW_cons e [] total w, sumBW_nil]
      omega

/-- Positive palette total implies a non-empty palette. -/
theorem ne_nil_of_total_pos (l : List ColorEntry)
    (ht : 0 < pixelFractionTotal l) : l ≠ [] := by
  intro h
  rw [h, pixelFractionTotal_nil] at ht
  exact lt_irrefl 0 ht

/-- Multiplying every weight of the palette by a constant `c`
(spec section 8, "Normalization"). -/
def scalePalette (c : ℚ) (l : List ColorEntry) : List ColorEntry :=
  l.map fun e => { e with pixel_fraction := c * e.pixel_fraction }

theorem pixelFractionTotal_scale (c : ℚ) (l : List ColorEntry) :
    pixelFractionTotal (scalePalette c l) = c * pixelFractionTotal l := by
  induction l with
  | nil => simp [scalePalette, pixelFractionTotal_nil]
  | cons e rest ih =>
      simp only [scalePalette, List.map_cons] at ih ⊢
      rw [pixelFractionTotal_cons, pixelFractionTotal_cons, ih, mul_add]

theorem blockWidth_scale (c total : ℚ) (w : ℕ) (e : ColorEntry) (hc : c ≠ 0) :
    blockWidth (c * total) w { e with pixel_fraction := c * e.pixel_fraction }
      = blockWidth total w e := by
  rw [blockWidth, blockWidth]
  simp only
  rw [mul_div_mul_left e.pixel_fraction total hc]

theorem drawBlocks_scale (c total : ℚ) (l : List ColorEntry) (hc : c ≠ 0) :
    ∀ (x0 : ℤ) (img : StripImage),
      drawBlocks (scalePalette c l) (c * total) x0 img
        = drawBlocks l total x0 img := by
  induction l with
  | nil => intro x0 img; rfl
  | cons e rest ih =>
      intro x0 img
      simp only [scalePalette, List.map_cons]
      rw [drawBlocks, drawBlocks]
      simp only [blockWidth_scale c total img.width e hc]
      have hrgb : entryRGB { e with pixel_fraction := c * e.pixel_fraction }
          = entryRGB e := rfl
      rw [hrgb]
      exact ih _ _

/-- A red sample entry with weight 1 (used for concrete evaluations). -/
def sampleRed : ColorEntry := ⟨⟨255, 0, 0⟩, 1⟩

/-- A green sample entry with weight 1 (used for concrete evaluations). -/
def sampleGreen : ColorEntry := ⟨⟨0, 255, 0⟩, 1⟩

theorem sampleTotal2 : pixelFractionTotal [sampleRed, sampleGreen] = 2 := by
  norm_num [pixelFractionTotal, sampleRed, sampleGreen]

theorem sampleBW2 (e : ColorEntry) (he : e.pixel_fraction = 1) :
    blockWidth 2 5 e = 2 := by
  rw [blockWidth, he]
  exact intTrunc_eval _ 2 (by norm_num) (by norm_num) (by norm_num)

/-- C1: the spec's region-extraction contract demands `h = corner2.y - y`, and
on the example corners `[(10,20),(110,20),(110,220),(10,220)]` a box of
height 200.  The source (line 143) instead computes
`h = vertices[2][0] - y_box`, subtracting the y-origin from the
x-coordinate 110 of the third corner, and produces height 90.  The first
three components x, y, w agree with the contract. -/
theorem region_height_uses_x_coordinate :
    extractBox [(10, 20), (110, 20), (110, 220), (10, 220)]
        = .ok ⟨10, 20, 100, 90⟩
      ∧ extractBoxSpec [(10, 20), (110, 20), (110, 220), (10, 220)]
        = .ok ⟨10, 20, 100, 200⟩
      ∧ (⟨10, 20, 100, 90⟩ : CropBox) ≠ ⟨10, 20, 100, 200⟩ := by
  refine ⟨rfl, rfl, ?_⟩
  decide

/-- C2 counterexample: an empty palette does not fail at all — the division
by the zero total sits inside the per-entry loop, which never runs — so the
renderer succeeds and returns the blank (all-black) strip. -/
theorem empty_palette_renders_ok :
    render [] default_total_width default_image_height
      = .ok (blankImage default_total_width default_image_height) := rfl

/-- C2 (amended): when the palette weights sum to zero, an empty palette
renders successfully as the blank background strip, while a non-empty palette
fails with the unguarded ZeroDivisionError of source line 122 (not with a
`DegenerateInputError`, which does not exist in the source). -/
theorem zero_total_render_behavior (l : List ColorEntry) (w h : ℕ)
    (ht : pixelFractionTotal l = 0) :
    (l = [] → render l w h = .ok (blankImage w h))
      ∧ (l ≠ [] → render l w h = .error .zeroDivision) := by
  constructor
  · intro hl
    subst hl
    rfl
  · intro hl
    cases l with
    | nil => exact absurd rfl hl
    | cons e rest =>
        rw [render]
        simp only [if_pos ht]

theorem zero_total_render_behavior_witness :
    pixelFractionTotal [(⟨⟨0, 0, 0⟩, 0⟩ : ColorEntry)] = 0
      ∧ (([(⟨⟨0, 0, 0⟩, 0⟩ : ColorEntry)] = ([] : List ColorEntry) →
          render [⟨⟨0, 0, 0⟩, 0⟩] 3 2 = .ok (blankImage 3 2))
        ∧ ([(⟨⟨0, 0, 0⟩, 0⟩ : ColorEntry)] ≠ [] →
          render [⟨⟨0, 0, 0⟩, 0⟩] 3 2 = .error .zeroDivision)) := by
  have h0 : pixelFractionTotal [(⟨⟨0, 0, 0⟩, 0⟩ : ColorEntry)] = 0 := by
    simp [pixelFractionTotal]
  exact ⟨h0, zero_total_render_behavior [⟨⟨0, 0, 0⟩, 0⟩] 3 2 h0⟩

/-- C4 counterexample: with a single corner point the source raises an
IndexError (an unhandled crash at `vertices[1]`), which is not the
`MalformedRegionError` the claim promises. -/
theorem short_vertices_index_error :
    extractBox [((0 : ℤ), (0 : ℤ))] = .error .indexOutOfRange
      ∧ RegionError.indexOutOfRange ≠ RegionError.malformedRegion := by
  refine ⟨rfl, ?_⟩
  decide

/-- C4 (amended): when the crop-hint region has fewer than 3 corner points,
region extraction crashes with an unhandled index-out-of-range error
(Python IndexError), not with a `MalformedRegionError`. -/
theorem short_vertices_fail (vs : List (ℤ × ℤ)) (hlen : vs.length < 3) :
    extractBox vs = .error .indexOutOfRange := by
  rcases vs with _ | ⟨a, _ | ⟨b, _ | ⟨c, rest⟩⟩⟩
  · rfl
  · rfl
  · rfl
  · simp only [List.length_cons] at hlen
    omega

theorem short_vertices_fail_witness :
    [((0 : ℤ), (0 : ℤ)), ((5 : ℤ), (7 : ℤ))].length < 3
      ∧ extractBox [((0 : ℤ), (0 : ℤ)), ((5 : ℤ), (7 : ℤ))]
          = .error .indexOutOfRange :=
  ⟨by decide, short_vertices_fail [((0 : ℤ), (0 : ℤ)), ((5 : ℤ), (7 : ℤ))]
    (by decide)⟩

/-- C9: setting parameters from a dict containing the credentials key and
reading them back returns the same credentials string (`str` on a string is
the identity). -/
theorem param_roundtrip (p : VisionParam) (d : String → Option String)
    (v : String) (hd : d "google_application_credentials" = some v) :
    ∃ p2, set_values p d = some p2
      ∧ get_values p2 "google_application_credentials"
          = d "google_application_credentials" := by
  refine ⟨⟨v⟩, ?_, ?_⟩
  · rw [set_values, hd]
  · rw [get_values]
    simp only [if_pos]
    rw [hd]

theorem param_roundtrip_witness :
    (fun k => if k = "google_application_credentials"
        then some "/tmp/cred.json" else none) "google_application_credentials"
        = some "/tmp/cred.json"
      ∧ ∃ p2, set_values VisionParam.default
            (fun k => if k = "google_application_credentials"
              then some "/tmp/cred.json" else none) = some p2
          ∧ get_values p2 "google_application_credentials"
              = (fun k => if k = "google_application_credentials"
                  then some "/tmp/cred.json" else none)
                  "google_application_credentials" := by
  have hd : (fun k => if k = "google_application_credentials"
      then some "/tmp/cred.json" else none) "google_application_credentials"
      = some "/tmp/cred.json" := by simp
  exact ⟨hd, param_roundtrip VisionParam.default _ "/tmp/cred.json" hd⟩

/-- C5: multiplying every palette weight by a positive constant leaves the
rendering (the whole `Except` result, hence width, height and every pixel)
unchanged. -/
theorem render_scale_invariant (l : List ColorEntry) (c : ℚ) (w h : ℕ)
    (hc : 0 < c) (ht : 0 < pixelFractionTotal l) :
    render (scalePalette c l) w h = render l w h := by
  cases l with
  | nil => rfl
  | cons e rest =>
      have hcne : c ≠ 0 := ne_of_gt hc
      have htne : pixelFractionTotal (e :: rest) ≠ 0 := ne_of_gt ht
      have hsne : pixelFractionTotal (scalePalette c (e :: rest)) ≠ 0 := by
        rw [pixelFractionTotal_scale]
        exact mul_ne_zero hcne htne
      rw [render_eq_ok (e :: rest) w h (by simp) htne,
        render_eq_ok (scalePalette c (e :: rest)) w h
          (by simp [scalePalette]) hsne]
      rw [pixelFractionTotal_scale]
      rw [drawBlocks_scale c (pixelFractionTotal (e :: rest)) (e :: rest) hcne]

theorem render_scale_invariant_witness :
    (0 : ℚ) < 3
      ∧ 0 < pixelFractionTotal [sampleRed, sampleGreen]
      ∧ render (scalePalette 3 [sampleRed, sampleGreen]) 5 1
          = render [sampleRed, sampleGreen] 5 1 :=
  ⟨by norm_num, by rw [sampleTotal2]; norm_num,
    render_scale_invariant [sampleRed, sampleGreen] 3 5 1 (by norm_num)
      (by rw [sampleTotal2]; norm_num)⟩

/-- C7: for a palette with positive total weight the renderer succeeds and the
strip has exactly the requested dimensions; the task defaults are
`total_width = 1200` and `image_height = 800`. -/
theorem render_dimensions (l : List ColorEntry) (w h : ℕ)
    (ht : 0 < pixelFractionTotal l) (hw : 0 < w) (hh : 0 < h) :
    (∃ img, render l w h = .ok img ∧ img.width = w ∧ img.height = h)
      ∧ default_total_width = 1200 ∧ default_image_height = 800 := by
  refine ⟨?_, rfl, rfl⟩
  refine ⟨drawBlocks l (pixelFractionTotal l) 0 (blankImage w h), ?_, ?_, ?_⟩
  · exact render_eq_ok l w h (ne_nil_of_total_pos l ht) (ne_of_gt ht)
  · rw [drawBlocks_width]
    rfl
  · rw [drawBlocks_height]
    rfl

theorem render_dimensions_witness :
    0 < pixelFractionTotal [sampleRed, sampleGreen]
      ∧ (0 : ℕ) < 5 ∧ (0 : ℕ) < 1
      ∧ ((∃ img, render [sampleRed, sampleGreen] 5 1 = .ok img
            ∧ img.width = 5 ∧ img.height = 1)
          ∧ default_total_width = 1200 ∧ default_image_height = 800) :=
  ⟨by rw [sampleTotal2]; norm_num, by decide, by decide,
    render_dimensions [sampleRed, sampleGreen] 5 1
      (by rw [sampleTotal2]; norm_num) (by decide) (by decide)⟩

/-- C10: the loop cursor starts at 0, after each iteration equals the sum of
the block widths drawn so far, is non-decreasing (block widths are
non-negative), and never exceeds the strip width. -/
theorem cursor_invariant (l : List ColorEntry) (w : ℕ)
    (hf : ∀ e ∈ l, 0 ≤ e.pixel_fraction) (ht : 0 < pixelFractionTotal l) :
    finalCursor (l.take 0) (pixelFractionTotal l) w 0 = 0
      ∧ (∀ k : ℕ, finalCursor (l.take k) (pixelFractionTotal l) w 0
          = sumBW (l.take k) (pixelFractionTotal l) w)
      ∧ (∀ k : ℕ, finalCursor (l.take k) (pixelFractionTotal l) w 0
          ≤ finalCursor (l.take (k + 1)) (pixelFractionTotal l) w 0)
      ∧ (∀ k : ℕ, 0 ≤ finalCursor (l.take k) (pixelFractionTotal l) w 0
          ∧ finalCursor (l.take k) (pixelFractionTotal l) w 0 ≤ (w : ℤ)) := by
  have hbw := blockWidths_nonneg l w hf ht
  have hcur : ∀ k : ℕ, finalCursor (l.take k) (pixelFractionTotal l) w 0
      = sumBW (l.take k) (pixelFractionTotal l) w := by
    intro k
    rw [finalCursor_eq, zero_add]
  refine ⟨by rw [hcur 0]; rfl, hcur, ?_, ?_⟩
  · intro k
    rw [hcur k, hcur (k + 1)]
    exact sumBW_take_mono l (pixelFractionTotal l) w k hbw
  · intro k
    rw [hcur k]
    constructor
    · exact sumBW_take_nonneg l (pixelFractionTotal l) w k hbw
    · exact le_trans (sumBW_take_le l (pixelFractionTotal l) w k hbw)
        (sumBW_le_width l w hf ht)

theorem cursor_invariant_witness :
    (∀ e ∈ [sampleRed, sampleGreen], 0 ≤ e.pixel_fraction)
      ∧ 0 < pixelFractionTotal [sampleRed, sampleGreen]
      ∧ (finalCursor ([sampleRed, sampleGreen].take 0)
            (pixelFractionTotal [sampleRed, sampleGreen]) 5 0 = 0
        ∧ (∀ k : ℕ, finalCursor ([sampleRed, sampleGreen].take k)
              (pixelFractionTotal [sampleRed, sampleGreen]) 5 0
            = sumBW ([sampleRed, sampleGreen].take k)
                (pixelFractionTotal [sampleRed, sampleGreen]) 5)
        ∧ (∀ k : ℕ, finalCursor ([sampleRed, sampleGreen].take k)
              (pixelFractionTotal [sampleRed, sampleGreen]) 5 0
            ≤ finalCursor ([sampleRed, sampleGreen].take (k + 1))
                (pixelFractionTotal [sampleRed, sampleGreen]) 5 0)
        ∧ (∀ k : ℕ, 0 ≤ finalCursor ([sampleRed, sampleGreen].take k)
              (pixelFractionTotal [sampleRed, sampleGreen]) 5 0
            ∧ finalCursor ([sampleRed, sampleGreen].take k)
                (pixelFractionTotal [sampleRed, sampleGreen]) 5 0 ≤ (5 : ℤ))) := by
  have hf : ∀ e ∈ [sampleRed, sampleGreen], 0 ≤ e.pixel_fraction := by
    intro e he
    simp only [List.mem_cons, List.not_mem_nil, or_false] at he
    rcases he with rfl | rfl
    · norm_num [sampleRed]
    · norm_num [sampleGreen]
  have ht : 0 < pixelFractionTotal [sampleRed, sampleGreen] := by
    rw [sampleTotal2]; norm_num
  exact ⟨hf, ht, cursor_invariant [sampleRed, sampleGreen] 5 hf ht⟩

/-- A rendered pixel inside the image is the result of folding the drawing
loop over the black background. -/
theorem render_pixel_painted (l : List ColorEntry) (w h py px : ℕ)
    (hpy : py < h) :
    (drawBlocks l (pixelFractionTotal l) 0 (blankImage w h)).pixel py px
      = paintedColor l (pixelFractionTotal l) w 0 px (0, 0, 0) := by
  have hp := drawBlocks_pixel l (pixelFractionTotal l) 0 (blankImage w h)
    py px hpy
  simpa [blankImage] using hp

/-- C3 (amended): each entry's rectangle is inclusive of both endpoints
(`[x0, x0 + block_width] × [0, height]`, per PIL), so in the final image each
entry owns the half-open span whose bounds are the partial sums of the block
widths, blocks appear left-to-right in input order with no blending, the last
entry additionally paints the column at the final cursor when it lies inside
the image, and everything right of that is background black. -/
theorem blocks_final_layout (l : List ColorEntry) (w h : ℕ)
    (hf : ∀ e ∈ l, 0 ≤ e.pixel_fraction) (ht : 0 < pixelFractionTotal l) :
    ∃ img, render l w h = .ok img
      ∧ (∀ (i : ℕ) (hi : i < l.length) (py px : ℕ), py < h →
          sumBW (l.take i) (pixelFractionTotal l) w ≤ (px : ℤ) →
          (px : ℤ) < sumBW (l.take (i + 1)) (pixelFractionTotal l) w →
          img.pixel py px = entryRGB (l.get ⟨i, hi⟩))
      ∧ (∀ (hne : l ≠ []) (py px : ℕ), py < h → px < w →
          (px : ℤ) = sumBW l (pixelFractionTotal l) w →
          img.pixel py px = entryRGB (l.getLast hne))
      ∧ (∀ (py px : ℕ), py < h →
          sumBW l (pixelFractionTotal l) w < (px : ℤ) →
          img.pixel py px = (0, 0, 0)) := by
  have hbw := blockWidths_nonneg l w hf ht
  have hne := ne_nil_of_total_pos l ht
  refine ⟨drawBlocks l (pixelFractionTotal l) 0 (blankImage w h),
    render_eq_ok l w h hne (ne_of_gt ht), ?_, ?_, ?_⟩
  · intro i hi py px hpy h1 h2
    rw [render_pixel_painted l w h py px hpy]
    have hxw : px < w := by
      have hle := sumBW_take_le l (pixelFractionTotal l) w (i + 1) hbw
      have hlw := sumBW_le_width l w hf ht
      omega
    exact paintedColor_get l (pixelFractionTotal l) w 0 px (0, 0, 0) i hi hbw
      hxw (by omega) (by omega)
  · intro hne2 py px hpy hxw hx
    rw [render_pixel_painted l w h py px hpy]
    exact paintedColor_last l (pixelFractionTotal l) w 0 px (0, 0, 0) hne2
      hbw hxw (by omega)
  · intro py px hpy hx
    rw [render_pixel_painted l w h py px hpy]
    exact paintedColor_of_gt l (pixelFractionTotal l) w 0 px (0, 0, 0) hbw
      (by omega)

/-- C3 counterexample: palette `[red weight 1, green weight 1]` on a 5×1
strip.  Both block widths are `int(2.5) = 2`, so per the claim the pixels
should be red on `[0,2)`, green on `[2,4)`, and background on column 4.  The
source's inclusive rectangles instead paint column 4 green (the green
rectangle spans columns 2..4), so the image differs from the claim's
half-open description at pixel (row 0, column 4). -/
theorem half_open_blocks_counterexample :
    renderPixel [sampleRed, sampleGreen] 5 1 0 4 = some (0, 255, 0)
      ∧ specRenderPixel [sampleRed, sampleGreen] 5 1 0 4 = some (0, 0, 0)
      ∧ some ((0 : ℤ), (255 : ℤ), (0 : ℤ)) ≠ some ((0 : ℤ), (0 : ℤ), (0 : ℤ)) := by
  refine ⟨?_, ?_, by decide⟩
  · rw [renderPixel, render]
    simp only [sampleTotal2]
    rw [if_neg (by norm_num)]
    simp only [Except.toOption, Option.map]
    simp only [drawBlocks, blankImage, drawRect]
    simp only [sampleBW2 sampleRed rfl, sampleBW2 sampleGreen rfl]
    norm_num [entryRGB, sampleGreen, intTrunc]
  · rw [specRenderPixel, specRender]
    simp only [sampleTotal2]
    rw [if_neg (by norm_num)]
    simp only [Except.toOption, Option.map]
    simp only [specDrawBlocks, blankImage, specDrawRect]
    simp only [sampleBW2 sampleRed rfl, sampleBW2 sampleGreen rfl]
    norm_num

theorem blocks_final_layout_witness :
    (∀ e ∈ [sampleRed, sampleGreen], 0 ≤ e.pixel_fraction)
      ∧ 0 < pixelFractionTotal [sampleRed, sampleGreen]
      ∧ (∃ img, render [sampleRed, sampleGreen] 5 1 = .ok img
          ∧ (∀ (i : ℕ) (hi : i < [sampleRed, sampleGreen].length) (py px : ℕ),
              py < 1 →
              sumBW ([sampleRed, sampleGreen].take i)
                (pixelFractionTotal [sampleRed, sampleGreen]) 5 ≤ (px : ℤ) →
              (px : ℤ) < sumBW ([sampleRed, sampleGreen].take (i + 1))
                (pixelFractionTotal [sampleRed, sampleGreen]) 5 →
              img.pixel py px = entryRGB ([sampleRed, sampleGreen].get ⟨i, hi⟩))
          ∧ (∀ (hne : [sampleRed, sampleGreen] ≠ []) (py px : ℕ),
              py < 1 → px < 5 →
              (px : ℤ) = sumBW [sampleRed, sampleGreen]
                (pixelFractionTotal [sampleRed, sampleGreen]) 5 →
              img.pixel py px = entryRGB ([sampleRed, sampleGreen].getLast hne))
          ∧ (∀ (py px : ℕ), py < 1 →
              sumBW [sampleRed, sampleGreen]
                (pixelFractionTotal [sampleRed, sampleGreen]) 5 < (px : ℤ) →
              img.pixel py px = (0, 0, 0))) := by
  have hf : ∀ e ∈ [sampleRed, sampleGreen], 0 ≤ e.pixel_fraction := by
    intro e he
    simp only [List.mem_cons, List.not_mem_nil, or_false] at he
    rcases he with rfl | rfl
    · norm_num [sampleRed]
    · norm_num [sampleGreen]
  have ht : 0 < pixelFractionTotal [sampleRed, sampleGreen] := by
    rw [sampleTotal2]; norm_num
  exact ⟨hf, ht, blocks_final_layout [sampleRed, sampleGreen] 5 1 hf ht⟩

/-- C6 (amended): the columns not covered by any drawn block are exactly the
trailing columns strictly right of the total block width; they are background
black; and the floor-truncation shortfall `width - Σ block_width` is at most
`palette_size - 1`.  (The number of uncovered columns is one less than
`width - Σ` when positive, because the last block's inclusive rectangle also
paints the column at `Σ`.) -/
theorem trailing_background (l : List ColorEntry) (w h : ℕ)
    (hf : ∀ e ∈ l, 0 ≤ e.pixel_fraction) (ht : 0 < pixelFractionTotal l) :
    ∃ img, render l w h = .ok img
      ∧ (w : ℤ) - sumBW l (pixelFractionTotal l) w ≤ (l.length : ℤ) - 1
      ∧ (∀ px : ℕ,
          (coveredB (blockSpans l (pixelFractionTotal l) w 0) (px : ℤ) = false
            ↔ sumBW l (pixelFractionTotal l) w < (px : ℤ)))
      ∧ (∀ py px : ℕ, py < h →
          coveredB (blockSpans l (pixelFractionTotal l) w 0) (px : ℤ) = false →
          img.pixel py px = (0, 0, 0)) := by
  have hbw := blockWidths_nonneg l w hf ht
  have hne := ne_nil_of_total_pos l ht
  have hcov : ∀ px : ℕ,
      (coveredB (blockSpans l (pixelFractionTotal l) w 0) (px : ℤ) = false
        ↔ sumBW l (pixelFractionTotal l) w < (px : ℤ)) := by
    intro px
    have hiff := coveredB_iff l (pixelFractionTotal l) w 0 (px : ℤ) hne hbw
    rw [zero_add] at hiff
    constructor
    · intro hfalse
      by_contra hle
      have : coveredB (blockSpans l (pixelFractionTotal l) w 0) (px : ℤ)
          = true := hiff.mpr ⟨Int.ofNat_nonneg px, by omega⟩
      rw [this] at hfalse
      exact Bool.noConfusion hfalse
    · intro hlt
      by_contra hneq
      have htrue : coveredB (blockSpans l (pixelFractionTotal l) w 0)
          (px : ℤ) = true := by
        cases hb : coveredB (blockSpans l (pixelFractionTotal l) w 0) (px : ℤ)
        · exact absurd hb hneq
        · rfl
      have := (hiff.mp htrue).2
      omega
  refine ⟨drawBlocks l (pixelFractionTotal l) 0 (blankImage w h),
    render_eq_ok l w h hne (ne_of_gt ht),
    width_sub_sumBW_le l w hf ht, hcov, ?_⟩
  intro py px hpy hfalse
  rw [render_pixel_painted l w h py px hpy]
  exact paintedColor_of_gt l (pixelFractionTotal l) w 0 px (0, 0, 0) hbw
    (by have := (hcov px).mp hfalse; omega)

/-- C6 counterexample: for the palette `[red 1, green 1]` on a 5-pixel-wide
strip, `width - Σ block_width = 5 - 4 = 1`, yet every one of the 5 columns is
covered by a drawn block (the green rectangle spans columns 2..4 inclusive),
so the number of uncovered trailing background pixels is 0, not
`width - Σ block_width`. -/
theorem uncovered_count_counterexample :
    (5 : ℤ) - sumBW [sampleRed, sampleGreen]
        (pixelFractionTotal [sampleRed, sampleGreen]) 5 = 1
      ∧ ((List.range 5).all fun px =>
          coveredB (blockSpans [sampleRed, sampleGreen]
            (pixelFractionTotal [sampleRed, sampleGreen]) 5 0) (px : ℤ)) = true
      ∧ (1 : ℤ) ≠ 0 := by
  have hspans : blockSpans [sampleRed, sampleGreen]
      (pixelFractionTotal [sampleRed, sampleGreen]) 5 0 = [(0, 2), (2, 4)] := by
    simp only [blockSpans, sampleTotal2, sampleBW2 sampleRed rfl,
      sampleBW2 sampleGreen rfl]
    norm_num
  have hsum : sumBW [sampleRed, sampleGreen]
      (pixelFractionTotal [sampleRed, sampleGreen]) 5 = 4 := by
    simp only [sumBW, sampleTotal2, List.map_cons, List.map_nil,
      sampleBW2 sampleRed rfl, sampleBW2 sampleGreen rfl, List.sum_cons,
      List.sum_nil]
    norm_num
  refine ⟨by rw [hsum]; decide, ?_, by decide⟩
  rw [hspans]
  decide

theorem trailing_background_witness :
    (∀ e ∈ [sampleRed, sampleGreen], 0 ≤ e.pixel_fraction)
      ∧ 0 < pixelFractionTotal [sampleRed, sampleGreen]
      ∧ (∃ img, render [sampleRed, sampleGreen] 5 1 = .ok img
          ∧ (5 : ℤ) - sumBW [sampleRed, sampleGreen]
              (pixelFractionTotal [sampleRed, sampleGreen]) 5
              ≤ ([sampleRed, sampleGreen].length : ℤ) - 1
          ∧ (∀ px : ℕ,
              (coveredB (blockSpans [sampleRed, sampleGreen]
                  (pixelFractionTotal [sampleRed, sampleGreen]) 5 0)
                  (px : ℤ) = false
                ↔ sumBW [sampleRed, sampleGreen]
                    (pixelFractionTotal [sampleRed, sampleGreen]) 5 < (px : ℤ)))
          ∧ (∀ py px : ℕ, py < 1 →
              coveredB (blockSpans [sampleRed, sampleGreen]
                  (pixelFractionTotal [sampleRed, sampleGreen]) 5 0)
                  (px : ℤ) = false →
              img.pixel py px = (0, 0, 0))) := by
  have hf : ∀ e ∈ [sampleRed, sampleGreen], 0 ≤ e.pixel_fraction := by
    intro e he
    simp only [List.mem_cons, List.not_mem_nil, or_false] at he
    rcases he with rfl | rfl
    · norm_num [sampleRed]
    · norm_num [sampleGreen]
  have ht : 0 < pixelFractionTotal [sampleRed, sampleGreen] := by
    rw [sampleTotal2]; norm_num
  exact ⟨hf, ht, trailing_background [sampleRed, sampleGreen] 5 1 hf ht⟩

/-- C8: whenever `run` succeeds, the detected-region record has label exactly
`"selected area"` and confidence exactly 1.0, and the original input image is
forwarded unchanged alongside it (`forward_input_image(0, 3)` /
`add_object(0, 'selected area', 1.0, ...)`, source lines 77 and 146). -/
theorem run_selected_area (α : Type) (src : α) (cd : List ColorEntry)
    (txt : String) (vs : List (ℤ × ℤ)) (w h : ℕ)
    (hok : (runTask src cd txt vs w h).toOption.isSome = true) :
    ((runTask src cd txt vs w h).toOption.map fun o =>
        (o.box_object.label, o.box_object.confidence, o.forwarded_image))
      = some ("selected area", 1, src) := by
  rw [runTask] at hok ⊢
  cases hr : render cd w h with
  | error e =>
      rw [hr] at hok
      simp [Except.toOption] at hok
  | ok strip =>
      cases hb : extractBox vs with
      | error e =>
          rw [hr, hb] at hok
          simp [Except.toOption] at hok
      | ok box => rfl

theorem run_selected_area_witness :
    ((runTask (7 : ℕ) [sampleRed] "response text"
        [((0 : ℤ), (0 : ℤ)), (1, 0), (1, 1), (0, 1)] 1 1).toOption.map
          fun o => (o.box_object.label, o.box_object.confidence,
            o.forwarded_image))
      = some ("selected area", 1, 7) := by
  have hrender : render [sampleRed] 1 1
      = .ok (drawBlocks [sampleRed] (pixelFractionTotal [sampleRed]) 0
          (blankImage 1 1)) := by
    apply render_eq_ok
    · simp
    · norm_num [pixelFractionTotal, sampleRed]
  have hok : (runTask (7 : ℕ) [sampleRed] "response text"
      [((0 : ℤ), (0 : ℤ)), (1, 0), (1, 1), (0, 1)] 1 1).toOption.isSome
      = true := by
    rw [runTask, hrender]
    rfl
  exact run_selected_area ℕ 7 [sampleRed] "response text"
    [((0 : ℤ), (0 : ℤ)), (1, 0), (1, 1), (0, 1)] 1 1 hok
